import Mathlib

/-!
Verification of the Smurfing Hunter transaction-graph pipeline.

This file gives a shallow embedding, in Lean, of the data model and the
operations of the repository: feature engineering over transaction lists,
wallet vocabulary construction, stratified mask creation, the composite
suspicion score, the training loop bookkeeping around the validation AUC,
and the mode switching behaviour of the model wrapper.  Tensors are
modelled as lists of rationals, dataframes as a column-name list plus row
maps, and the torch global random generator as an explicit parameter
threaded through the functions that consume it.  Theorems named after
claim identifiers settle the corresponding specification sentences.
-/

namespace Rapid

/-! ## Composite suspicion score (src/src/utils.py, calculate_suspicion_score) -/

/-- Clamp a rational into the unit interval, modelling torch.clamp(x, 0, 1). -/

def clamp01 (x : ℚ) : ℚ := min (max x 0) 1

/-- The literal 1e-8 added to the denominator in calculate_suspicion_score. -/

def epsQ : ℚ := 1 / 100000000

/-- Largest entry of a tensor of non-negative values, modelling tensor.max()
(for the degree tensors in use every entry is a non-negative count, so the
0 seed is neutral). -/

def tensorMax (l : List ℚ) : ℚ := l.foldr max 0

/-- Per-wallet combination step of calculate_suspicion_score: add the weighted
anomaly to the probability and clamp into the unit interval. -/

def suspicionPoint (p a w : ℚ) : ℚ := clamp01 (p + w * a)

/-- The degree_anomaly tensor of calculate_suspicion_score:
(in_degree + out_degree) / (in_degree.max() + out_degree.max() + 1e-8). -/

def degree_anomaly (inDeg outDeg : List ℚ) : List ℚ :=
  List.zipWith (fun i o => (i + o) / (tensorMax inDeg + tensorMax outDeg + epsQ)) inDeg outDeg

/-- calculate_suspicion_score from src/src/utils.py: start from the cloned
probabilities; when both degree tensors are supplied, add the weighted degree
anomaly and clamp to the unit interval, otherwise return the probabilities. -/

def calculate_suspicion_score (probs : List ℚ) (inDeg outDeg : Option (List ℚ))
    (degree_weight : ℚ) : List ℚ :=
  match inDeg, outDeg with
  | some di, some dout => List.zipWith (fun p a => suspicionPoint p a degree_weight)
      probs (degree_anomaly di dout)
  | _, _ => probs

/-- Modelled from the claim wording, for comparison against the code: a degree
anomaly normalized by the maximum combined degree of the graph, i.e. the
maximum over all wallets of in-degree plus out-degree. -/

def degreeAnomalyClaim (inDeg outDeg : List ℚ) : List ℚ :=
  List.zipWith (fun i o => (i + o) / tensorMax (List.zipWith (· + ·) inDeg outDeg)) inDeg outDeg

/-! ## Wallet vocabulary and index maps (src/src/data_loader.py, load_transaction_graph) -/

/-- Position of the first occurrence of an element in a list, modelling the
dictionary built by enumerating the sorted vocabulary. -/

def idxOfW {α : Type} [DecidableEq α] : List α → α → ℕ
  | [], _ => 0
  | v :: vs, w => if v = w then 0 else idxOfW vs w + 1

/-- The wallet vocabulary of load_transaction_graph: the set union of source
ids, destination ids and labeled ids, sorted. -/

def buildVocab (sources dests labelIds : List String) : List String :=
  (sources.toFinset ∪ dests.toFinset ∪ labelIds.toFinset).sort (· ≤ ·)

/-- wallet_to_idx: identity to position in the sorted vocabulary. -/

def wallet_to_idx (vocab : List String) (w : String) : ℕ := idxOfW vocab w

/-- idx_to_wallet: position in the sorted vocabulary back to identity. -/

def idx_to_wallet (vocab : List String) (i : ℕ) : String := vocab.getD i ""

/-! ## Two-hop subgraph extraction (src/main.py, extract_2hop_subgraph) -/

/-- extract_2hop_subgraph from src/main.py.  The torch_geometric helper
k_hop_subgraph is library code and enters as the parameter khop, mapping
(target index, hop count, edge index, node count) to the chosen node subset
and the locally relabeled edge list.  An absent target short-circuits to a
null result before the helper is consulted. -/

def extract_2hop_subgraph (khop : ℕ → ℕ → List (ℕ × ℕ) → ℕ → List ℕ × List (ℕ × ℕ))
    (y : List ℤ) (edges : List (ℕ × ℕ)) (vocab : List String) (target : String) :
    Option (List String × List (String × String) × List (String × ℤ)) :=
  if target ∈ vocab then
    let ti := wallet_to_idx vocab target
    let res := khop ti 2 edges vocab.length
    let nodes := res.1.map (idx_to_wallet vocab)
    let subEdges := res.2.map (fun e =>
      (idx_to_wallet vocab (res.1.getD e.1 0), idx_to_wallet vocab (res.1.getD e.2 0)))
    let nodeLabels := res.1.map (fun j => (idx_to_wallet vocab j, y.getD j 0))
    some (nodes, subEdges, nodeLabels)
  else none

/-! ## Model wrapper mode switching (src/src/model.py, SmurfingHunter) -/

/-- The SmurfingHunter module of src/src/model.py over an abstract tensor
type.  The learned layers, the rectifier, the stochastic dropout mask, the
two behaviours of each batch normalization layer (batch statistics during
training, running statistics in inference) and the softmax are carried as
function fields; the training flag is the module mode toggled by eval. -/

structure SmurfingHunter (α : Type) where
  conv1 : α → α
  conv2 : α → α
  bn1_train : α → α
  bn1_eval : α → α
  bn2_train : α → α
  bn2_eval : α → α
  classifier : α → α
  relu : α → α
  dropMask : α → α
  softmaxF : α → α
  training : Bool

/-- F.dropout: applies the stochastic mask only when the training flag is set. -/

def dropoutF {α : Type} (training : Bool) (mask : α → α) (x : α) : α :=
  if training then mask x else x

/-- Batch normalization dispatch on the module mode. -/

def bnApply {α : Type} (training : Bool) (bt be : α → α) (x : α) : α :=
  if training then bt x else be x

/-- forward of SmurfingHunter: two SAGE-BN-ReLU-dropout blocks, then the
classification head. -/

def forward {α : Type} (m : SmurfingHunter α) (x : α) : α :=
  let h₁ := dropoutF m.training m.dropMask
    (m.relu (bnApply m.training m.bn1_train m.bn1_eval (m.conv1 x)))
  let h₂ := dropoutF m.training m.dropMask
    (m.relu (bnApply m.training m.bn2_train m.bn2_eval (m.conv2 h₁)))
  m.classifier h₂

/-- self.eval(): clears the training flag and leaves every layer unchanged. -/

def modelEval {α : Type} (m : SmurfingHunter α) : SmurfingHunter α :=
  { m with training := false }

/-- get_embeddings: switches to inference mode, then applies the two blocks
without dropout and without the head, returning embeddings with the module
in its new mode. -/

def get_embeddings {α : Type} (m : SmurfingHunter α) (x : α) : α × SmurfingHunter α :=
  let m₂ := modelEval m
  (m₂.relu (bnApply m₂.training m₂.bn2_train m₂.bn2_eval
    (m₂.conv2 (m₂.relu (bnApply m₂.training m₂.bn1_train m₂.bn1_eval (m₂.conv1 x))))), m₂)

/-- predict_proba: switches to inference mode, then softmax over forward,
returning probabilities with the module in its new mode. -/

def predict_proba {α : Type} (m : SmurfingHunter α) (x : α) : α × SmurfingHunter α :=
  let m₂ := modelEval m
  (m₂.softmaxF (forward m₂ x), m₂)

/-! ## Training loop checkpoint bookkeeping (src/main.py, evaluate and main) -/

/-- One evaluation epoch: the predicted labels, true labels and class-1
probabilities of the masked nodes. -/

structure Ep where
  pred : List ℕ
  yTrue : List ℕ
  probs : List ℚ

/-- Count of positions where prediction and truth agree. -/

def countEq (a b : List ℕ) : ℕ :=
  (List.zipWith (fun x y => if x = y then 1 else 0) a b).sum

/-- Mean prediction accuracy over the masked nodes. -/

def accQ (pred yTrue : List ℕ) : ℚ := (countEq pred yTrue : ℚ) / (yTrue.length : ℚ)

/-- evaluate from src/main.py: accuracy together with the ROC AUC, where a
failing AUC computation (modelled by none from the sklearn scorer) is
replaced by 0.0 by the bare except handler. -/

def evaluate (aucFn : List ℕ → List ℚ → Option ℚ) (e : Ep) : ℚ × ℚ :=
  (accQ e.pred e.yTrue, (aucFn e.yTrue e.probs).getD 0)

/-- Checkpoint bookkeeping state of the training loop: the best validation
AUC so far and the epochs at which a checkpoint was written. -/

structure TrainState where
  best : ℚ
  saved : List ℕ

/-- The per-epoch loop of main: evaluate, then save a checkpoint exactly when
the validation AUC strictly exceeds the best seen so far. -/

def trainLoopAux (aucFn : List ℕ → List ℚ → Option ℚ) :
    ℕ → TrainState → List Ep → TrainState
  | _, st, [] => st
  | k, st, e :: rest =>
    let auc := (evaluate aucFn e).2
    trainLoopAux aucFn (k + 1)
      (if st.best < auc then ⟨auc, st.saved ++ [k]⟩ else st) rest

/-- The training loop of main: epochs numbered from 1, best AUC starting at 0. -/

def trainLoop (aucFn : List ℕ → List ℚ → Option ℚ) (epochs : List Ep) : TrainState :=
  trainLoopAux aucFn 1 ⟨0, []⟩ epochs

/-! ## Feature engineering (src/src/utils.py) -/

/-- One transaction row: source and destination identity, amount, and the
timestamp in seconds. -/

structure Tx where
  src : String
  dst : String
  amount : ℚ
  ts : ℚ

/-- The groupby group of a source wallet: its outgoing transactions in row
order. -/

def txsFrom (txs : List Tx) (w : String) : List Tx :=
  txs.filter (fun t => decide (t.src = w))

/-- Insertion into an ascending rational list. -/

def insertQ (x : ℚ) : List ℚ → List ℚ
  | [] => [x]
  | y :: ys => if x ≤ y then x :: y :: ys else y :: insertQ x ys

/-- Ascending sort, modelling Series.sort_values on the timestamps. -/

def sortQ (l : List ℚ) : List ℚ := l.foldr insertQ []

/-- Consecutive differences, modelling Series.diff().dropna(). -/

def diffsQ : List ℚ → List ℚ
  | a :: b :: rest => (b - a) :: diffsQ (b :: rest)
  | _ => []

/-- The inter-transaction gaps of one source wallet, converted from seconds
to hours. -/

def deltasOf (txs : List Tx) (w : String) : List ℚ :=
  (diffsQ (sortQ ((txsFrom txs w).map Tx.ts))).map (fun d => d / 3600)

/-- Arithmetic mean, modelling np.mean. -/

def meanQ (l : List ℚ) : ℚ := l.sum / (l.length : ℚ)

/-- Population variance of a list. -/

def varQ (l : List ℚ) : ℚ := meanQ (l.map (fun x => (x - meanQ l) ^ 2))

/-- np.std modelled as an abstract square root sqrtA applied to the
population variance; the claims proved here never depend on its value. -/

def stdQ (sqrtA : ℚ → ℚ) (l : List ℚ) : ℚ := sqrtA (varQ l)

/-- Entry of time_delta_mean for one wallet: filled with the mean gap only
when the wallet has at least one gap, otherwise the zero initialization of
the tensor survives. -/

def timeDeltaMeanAt (txs : List Tx) (w : String) : ℚ :=
  let ds := deltasOf txs w
  if 0 < ds.length then meanQ ds else 0

/-- Entry of time_delta_std for one wallet: the deviation of the gaps when
there are at least two of them, otherwise 0. -/

def timeDeltaStdAt (sqrtA : ℚ → ℚ) (txs : List Tx) (w : String) : ℚ :=
  let ds := deltasOf txs w
  if 1 < ds.length then stdQ sqrtA ds else 0

/-- Entry of amount_mean for one wallet: the mean outgoing amount when the
wallet is the source of at least one transaction, otherwise 0. -/

def amountMeanAt (txs : List Tx) (w : String) : ℚ :=
  let amts := (txsFrom txs w).map Tx.amount
  if 0 < amts.length then meanQ amts else 0

/-- Entry of amount_std for one wallet: the deviation of the outgoing amounts
when there are at least two of them, otherwise 0. -/

def amountStdAt (sqrtA : ℚ → ℚ) (txs : List Tx) (w : String) : ℚ :=
  let amts := (txsFrom txs w).map Tx.amount
  if 1 < amts.length then stdQ sqrtA amts else 0

/-- calculate_time_delta_features from src/src/utils.py as node-indexed
tensors over the vocabulary. -/

def calculate_time_delta_features (sqrtA : ℚ → ℚ) (txs : List Tx)
    (vocab : List String) : List ℚ × List ℚ :=
  ((List.range vocab.length).map (fun i => timeDeltaMeanAt txs (vocab.getD i "")),
   (List.range vocab.length).map (fun i => timeDeltaStdAt sqrtA txs (vocab.getD i "")))

/-- calculate_amount_features from src/src/utils.py as node-indexed tensors
over the vocabulary. -/

def calculate_amount_features (sqrtA : ℚ → ℚ) (txs : List Tx)
    (vocab : List String) : List ℚ × List ℚ :=
  ((List.range vocab.length).map (fun i => amountMeanAt txs (vocab.getD i "")),
   (List.range vocab.length).map (fun i => amountStdAt sqrtA txs (vocab.getD i "")))

/-- calculate_degree_features from src/src/utils.py: the in-degree of a node
counts the edges entering it, the out-degree the edges leaving it. -/

def calculate_degree_features (edges : List (ℕ × ℕ)) (numNodes : ℕ) :
    List ℚ × List ℚ :=
  ((List.range numNodes).map
      (fun i => ((edges.filter (fun e => decide (e.2 = i))).length : ℚ)),
   (List.range numNodes).map
      (fun i => ((edges.filter (fun e => decide (e.1 = i))).length : ℚ)))

/-- The edge index built by the loader: each transaction row becomes the
directed pair of its source and destination node indices. -/

def edgesOf (txs : List Tx) (vocab : List String) : List (ℕ × ℕ) :=
  txs.map (fun t => (wallet_to_idx vocab t.src, wallet_to_idx vocab t.dst))

/-! ## Stratified split masks (src/src/data_loader.py, create_stratified_masks) -/

/-- The three boolean mask tensors returned by create_stratified_masks. -/

structure Masks where
  train : List Bool
  val : List Bool
  test : List Bool

/-- torch.unique of the label tensor: its distinct values in ascending order. -/

def uniqueSorted {β : Type} [DecidableEq β] [LinearOrder β] (y : List β) : List β :=
  y.toFinset.sort (· ≤ ·)

/-- The ascending list of node indices of one label class, modelling
(y == label).nonzero. -/

def classIndices {β : Type} [DecidableEq β] [Inhabited β] (y : List β) (c : β) :
    List ℕ :=
  (List.range y.length).filter (fun i => decide (y.getD i default = c))

/-- label_indices[perm]: reindex the class indices through a draw of the
generator. -/

def reindex (l : List ℕ) (p : List ℕ) : List ℕ := p.map (fun j => l.getD j 0)

/-- int(n * r): the rounded-down scaled class size. -/

def cutQ (r : ℚ) (n : ℕ) : ℕ := (⌊(n : ℚ) * r⌋).toNat

/-- Set the listed positions of a boolean tensor to true, modelling
mask[indices] = True. -/

def setTrues (m : List Bool) (idxs : List ℕ) : List Bool :=
  idxs.foldl (fun acc i => acc.set i true) m

/-- The per-class body of the loop of create_stratified_masks: shuffle the
class indices with the next draw of the generator, cut at the rounded-down
train and validation proportions, and mark the three masks; the counter
pairs each class with its draw of the generator. -/

def stratStep {β : Type} [DecidableEq β] [Inhabited β] (rand : ℕ → ℕ → List ℕ)
    (y : List β) (trainFrac valFrac : ℚ) (acc : Masks × ℕ) (c : β) : Masks × ℕ :=
  let idxs := classIndices y c
  let n := idxs.length
  let sh := reindex idxs (rand acc.2 n)
  let nT := cutQ trainFrac n
  let nV := cutQ valFrac n
  (⟨setTrues acc.1.train (sh.take nT),
    setTrues acc.1.val ((sh.drop nT).take nV),
    setTrues acc.1.test (sh.drop (nT + nV))⟩, acc.2 + 1)

/-- create_stratified_masks from src/src/data_loader.py, with the torch
global generator passed explicitly: rand k n models the k-th call of
torch.randperm(n) issued by this invocation, so a caller fixing the global
seed before the call fixes rand. -/

def create_stratified_masks {β : Type} [DecidableEq β] [LinearOrder β] [Inhabited β]
    (rand : ℕ → ℕ → List ℕ) (y : List β) (trainFrac valFrac : ℚ) : Masks :=
  ((uniqueSorted y).foldl (stratStep rand y trainFrac valFrac)
    (⟨List.replicate y.length false, List.replicate y.length false,
      List.replicate y.length false⟩, 0)).1

/-- The node indices a class contributes to the train mask. -/

def trainSel {β : Type} [DecidableEq β] [Inhabited β] (rand : ℕ → ℕ → List ℕ)
    (y : List β) (trainFrac : ℚ) (k : ℕ) (c : β) : List ℕ :=
  (reindex (classIndices y c) (rand k (classIndices y c).length)).take
    (cutQ trainFrac (classIndices y c).length)

/-- The node indices a class contributes to the validation mask. -/

def valSel {β : Type} [DecidableEq β] [Inhabited β] (rand : ℕ → ℕ → List ℕ)
    (y : List β) (trainFrac valFrac : ℚ) (k : ℕ) (c : β) : List ℕ :=
  ((reindex (classIndices y c) (rand k (classIndices y c).length)).drop
    (cutQ trainFrac (classIndices y c).length)).take
      (cutQ valFrac (classIndices y c).length)

/-- The node indices a class contributes to the test mask. -/

def testSel {β : Type} [DecidableEq β] [Inhabited β] (rand : ℕ → ℕ → List ℕ)
    (y : List β) (trainFrac valFrac : ℚ) (k : ℕ) (c : β) : List ℕ :=
  (reindex (classIndices y c) (rand k (classIndices y c).length)).drop
    (cutQ trainFrac (classIndices y c).length + cutQ valFrac (classIndices y c).length)

/-- All indices contributed to one mask by a list of classes, the counter
advancing by one per class. -/

def chunksFrom {β : Type} (sel : ℕ → β → List ℕ) : ℕ → List β → List ℕ
  | _, [] => []
  | k, c :: cs => sel k c ++ chunksFrom sel (k + 1) cs

/-! ## Loading the transaction graph (src/src/data_loader.py, load_transaction_graph) -/

/-- A cell of a dataframe produced by read_csv: a numeric value, a parseable
timestamp, or free text. -/

inductive Cell where
  | num (q : ℚ)
  | time (t : ℚ)
  | str (s : String)
deriving DecidableEq

/-- A dataframe: the column names together with the rows, each row a map
from column name to cell. -/

structure DF where
  cols : List String
  rows : List (String → Cell)

/-- The pandas exceptions the loader can surface: KeyError for a missing
column, TypeError for an aggregate over non-numeric cells, ValueError for a
failed scalar conversion. -/

inductive PdError where
  | keyError (col : String)
  | typeError
  | valueError
deriving DecidableEq

/-- Column access df[c]: raises KeyError when the column is absent. -/

def getCol (df : DF) (c : String) : Except PdError (List Cell) :=
  if c ∈ df.cols then .ok (df.rows.map (fun r => r c)) else .error (.keyError c)

/-- The wallet identity carried by a cell. -/

def cellKey : Cell → String
  | .str s => s
  | .num q => toString q.num
  | .time t => toString t.num

/-- Numeric reading of a cell by np.mean: fails on text. -/

def cellNum : Cell → Option ℚ
  | .num q => some q
  | _ => none

/-- pd.to_datetime on a cell: accepts timestamps and numbers, fails on other
text. -/

def cellTime : Cell → Option ℚ
  | .time t => some t
  | .num q => some q
  | .str _ => none

/-- int(cell) for the label column: numeric cells convert, text raises. -/

def cellInt : Cell → Option ℤ
  | .num q => some ⌊q⌋
  | _ => none

/-- Convert every cell or fail on the first one the converter rejects. -/

def optMapAll {γ : Type} (f : Cell → Option γ) : List Cell → Option (List γ)
  | [] => some []
  | c :: cs =>
    match f c, optMapAll f cs with
    | some v, some vs => some (v :: vs)
    | _, _ => none

/-- The label of a wallet after the sequential overwrite loop of the loader,
defaulting to 0 for unlabeled wallets. -/

def labelOf (pairs : List (String × ℤ)) (w : String) : ℤ :=
  pairs.foldl (fun acc p => if p.1 = w then p.2 else acc) 0

/-- The loaded graph: feature columns, edge index, labels, masks and the
vocabulary with its size. -/

structure GraphData where
  x : List (List ℚ)
  edge_index : List (ℕ × ℕ)
  y : List ℤ
  masks : Masks
  num_nodes : ℕ
  vocab : List String

/-- torch std over one feature column (the default unbiased estimator). -/

def torchStd (sqrtA : ℚ → ℚ) (l : List ℚ) : ℚ :=
  sqrtA ((l.map (fun x => (x - meanQ l) ^ 2)).sum / ((l.length : ℚ) - 1))

/-- normalize_features from src/src/utils.py: column-wise z-score with the
divisor floored to 1 whenever the deviation falls below eps. -/

def normalize_features (sqrtA : ℚ → ℚ) (featureCols : List (List ℚ)) (eps : ℚ) :
    List (List ℚ) :=
  featureCols.map (fun col =>
    let m := meanQ col
    let s := torchStd sqrtA col
    let s₂ := if s < eps then 1 else s
    col.map (fun x => (x - m) / s₂))

/-- Align the four raw columns into transaction rows. -/

def buildTxs (ss ds : List String) (amts ts : List ℚ) : List Tx :=
  ((ss.zip ds).zip (amts.zip ts)).map (fun p => ⟨p.1.1, p.1.2, p.2.1, p.2.2⟩)

/-- compute_node_features from src/src/utils.py: the six feature columns,
z-score normalized when requested. -/

def compute_node_features (sqrtA : ℚ → ℚ) (edge_index : List (ℕ × ℕ))
    (txs : List Tx) (vocab : List String) (normalize : Bool) : List (List ℚ) :=
  let degs := calculate_degree_features edge_index vocab.length
  let tds := calculate_time_delta_features sqrtA txs vocab
  let ams := calculate_amount_features sqrtA txs vocab
  let featureCols := [degs.1, degs.2, tds.1, tds.2, ams.1, ams.2]
  if normalize then normalize_features sqrtA featureCols (1/100000000) else featureCols

/-- The label vector stage of the loader: the iterrows loop touches the
Label column and converts its cells only when the labels table has rows. -/

def loadLabels (labeldf : DF) (labelIds : List String) (vocab : List String) :
    Except PdError (List ℤ) :=
  match labeldf.rows with
  | [] => .ok (vocab.map (fun _ => 0))
  | _ :: _ =>
    match getCol labeldf "Label" with
    | .error e => .error e
    | .ok lblVals =>
      match optMapAll cellInt lblVals with
      | some ints => .ok (vocab.map (labelOf (labelIds.zip ints)))
      | none => .error .valueError

/-- The amount stage of the loader: the groupby loop touches the Amount
column and aggregates its cells only when there is at least one transaction
row (an empty table has no groups, so a missing or malformed Amount column
goes unnoticed there). -/

def loadAmounts (txdf : DF) : Except PdError (List ℚ) :=
  match txdf.rows with
  | [] => .ok []
  | _ :: _ =>
    match getCol txdf "Amount" with
    | .error e => .error e
    | .ok aCells =>
      match optMapAll cellNum aCells with
      | some v => .ok v
      | none => .error .typeError

/-- The feature stage of the loader: when features are requested it reads
and parses the Timestamp column unconditionally and the amounts through
loadAmounts, otherwise it falls back to a single zero column. -/

def loadFeatures (sqrtA : ℚ → ℚ) (compute_features : Bool) (txdf : DF)
    (sources dests : List String) (edge_index : List (ℕ × ℕ))
    (vocab : List String) : Except PdError (List (List ℚ)) :=
  match compute_features with
  | false => .ok [vocab.map (fun _ => 0)]
  | true =>
    match getCol txdf "Timestamp" with
    | .error e => .error e
    | .ok tsCells =>
      match optMapAll cellTime tsCells with
      | none => .error .valueError
      | some tsVals =>
        match loadAmounts txdf with
        | .error e => .error e
        | .ok amts =>
          .ok (compute_node_features sqrtA edge_index
            (buildTxs sources dests amts tsVals) vocab true)

/-- The edge index of the loader: source and destination columns mapped
through the wallet dictionary. -/

def edgesIdx (sources dests : List String) (vocab : List String) :
    List (ℕ × ℕ) :=
  (sources.zip dests).map
    (fun p => (wallet_to_idx vocab p.1, wallet_to_idx vocab p.2))

/-- load_transaction_graph from src/src/data_loader.py: read the identity
columns, build the sorted vocabulary and the edge index, resolve labels,
compute features, create the stratified masks, and assemble the graph; any
pandas exception aborts the pipeline before a graph is produced. -/

def load_transaction_graph (sqrtA : ℚ → ℚ) (rand : ℕ → ℕ → List ℕ)
    (compute_features : Bool) (txdf labeldf : DF) : Except PdError GraphData :=
  match getCol txdf "Source_Wallet_ID" with
  | .error e => .error e
  | .ok srcCells =>
    match getCol txdf "Dest_Wallet_ID" with
    | .error e => .error e
    | .ok dstCells =>
      match getCol labeldf "Wallet_ID" with
      | .error e => .error e
      | .ok lblCells =>
        match loadLabels labeldf (lblCells.map cellKey)
            (buildVocab (srcCells.map cellKey) (dstCells.map cellKey)
              (lblCells.map cellKey)) with
        | .error e => .error e
        | .ok y =>
          match loadFeatures sqrtA compute_features txdf
              (srcCells.map cellKey) (dstCells.map cellKey)
              (edgesIdx (srcCells.map cellKey) (dstCells.map cellKey)
                (buildVocab (srcCells.map cellKey) (dstCells.map cellKey)
                  (lblCells.map cellKey)))
              (buildVocab (srcCells.map cellKey) (dstCells.map cellKey)
                (lblCells.map cellKey)) with
          | .error e => .error e
          | .ok x =>
            .ok ⟨x,
              edgesIdx (srcCells.map cellKey) (dstCells.map cellKey)
                (buildVocab (srcCells.map cellKey) (dstCells.map cellKey)
                  (lblCells.map cellKey)),
              y, create_stratified_masks rand y (3/5) (1/5),
              (buildVocab (srcCells.map cellKey) (dstCells.map cellKey)
                (lblCells.map cellKey)).length,
              buildVocab (srcCells.map cellKey) (dstCells.map cellKey)
                (lblCells.map cellKey)⟩

/-- Whether the loader produced a graph. -/

def isOkE {ε γ : Type} : Except ε γ → Bool
  | .ok _ => true
  | .error _ => false

/-- A transactions table with the source, destination and timestamp columns
but no amount column and no rows. -/

def txdfCE : DF := ⟨["Source_Wallet_ID", "Dest_Wallet_ID", "Timestamp"], []⟩

/-- A labels table with a single labeled wallet. -/

def labeldfCE : DF :=
  ⟨["Wallet_ID", "Label"],
   [fun c => if c = "Wallet_ID" then Cell.str "W1" else Cell.num 1]⟩

/-! ## Lemmas and claim theorems -/

lemma getD_zipWith (f : ℚ → ℚ → ℚ) (a b : List ℚ) (k : ℕ)
    (ha : k < a.length) (hb : k < b.length) :
    (List.zipWith f a b).getD k 0 = f (a.getD k 0) (b.getD k 0) := by
  have hz : k < (List.zipWith f a b).length := by
    rw [List.length_zipWith]; exact lt_min ha hb
  rw [List.getD_eq_getElem _ _ hz, List.getD_eq_getElem _ _ ha, List.getD_eq_getElem _ _ hb,
    List.getElem_zipWith]

lemma exists_of_mem_zipWith {f : ℚ → ℚ → ℚ} :
    ∀ {a b : List ℚ} {s : ℚ}, s ∈ List.zipWith f a b → ∃ x y, s = f x y := by
  intro a
  induction a with
  | nil => intro b s hs; simp [List.zipWith] at hs
  | cons x xs ih =>
    intro b s hs
    cases b with
    | nil => simp [List.zipWith] at hs
    | cons y ys =>
      simp only [List.zipWith, List.mem_cons] at hs
      rcases hs with h | h
      · exact ⟨x, y, h⟩
      · exact ih h

/-- C4 counterexample: on the graph with in-degrees [2, 0] and out-degrees
[0, 1] the anomaly tensor computed by the code differs from an anomaly
normalized by the maximum combined degree, because the code divides by the
sum of the two per-tensor maxima (attained at different wallets) plus 1e-8. -/
theorem C4_counterexample :
    degree_anomaly [2, 0] [0, 1] ≠ degreeAnomalyClaim [2, 0] [0, 1] := by
  simp only [degree_anomaly, degreeAnomalyClaim, tensorMax, epsQ, List.zipWith, List.foldr]
  norm_num

/-- C4 (amended): when both degree tensors are supplied, the anomaly term
added (before clamping) to wallet k equals its combined degree divided by
the sum of the maximum in-degree and the maximum out-degree plus 1e-8. -/
theorem C4_amended_anomaly_term (probs inDeg outDeg : List ℚ) (w : ℚ) (k : ℕ)
    (hk₁ : k < probs.length) (hk₂ : k < inDeg.length) (hk₃ : k < outDeg.length) :
    (calculate_suspicion_score probs (some inDeg) (some outDeg) w).getD k 0
      = clamp01 (probs.getD k 0
          + w * ((inDeg.getD k 0 + outDeg.getD k 0)
              / (tensorMax inDeg + tensorMax outDeg + epsQ))) := by
  unfold calculate_suspicion_score
  have hlen : k < (degree_anomaly inDeg outDeg).length := by
    unfold degree_anomaly
    rw [List.length_zipWith]; exact lt_min hk₂ hk₃
  rw [getD_zipWith _ _ _ _ hk₁ hlen]
  unfold degree_anomaly
  rw [getD_zipWith _ _ _ _ hk₂ hk₃]
  rfl

/-- C4 amended witness at a concrete input. -/
theorem C4_amended_anomaly_term_witness :
    (calculate_suspicion_score [1/2] (some [1]) (some [1]) (1/10)).getD 0 0
      = clamp01 ((1/2 : ℚ)
          + (1/10) * (((1:ℚ) + 1) / (tensorMax [1] + tensorMax [1] + epsQ))) := by
  have h := C4_amended_anomaly_term [1/2] [1] [1] (1/10) 0
    (by decide) (by decide) (by decide)
  simpa using h

/-- C5: the per-wallet composite score is monotonically non-decreasing in the
degree anomaly term at fixed probability and non-negative weight, and every
entry returned by calculate_suspicion_score with degrees supplied lies in
the closed unit interval. -/
theorem C5_monotone_and_bounded (p a a₂ w : ℚ) (probs inDeg outDeg : List ℚ)
    (hw : 0 ≤ w) (ha : a ≤ a₂) :
    suspicionPoint p a w ≤ suspicionPoint p a₂ w ∧
    ∀ s ∈ calculate_suspicion_score probs (some inDeg) (some outDeg) w,
      0 ≤ s ∧ s ≤ 1 := by
  constructor
  · unfold suspicionPoint clamp01
    have hmul : p + w * a ≤ p + w * a₂ := by nlinarith
    exact min_le_min (max_le_max hmul (le_refl 0)) (le_refl 1)
  · intro s hs
    unfold calculate_suspicion_score at hs
    obtain ⟨x, y, rfl⟩ := exists_of_mem_zipWith hs
    unfold suspicionPoint clamp01
    exact ⟨le_min (le_max_right _ _) zero_le_one, min_le_right _ _⟩

/-- C5 witness at a concrete input. -/
theorem C5_monotone_and_bounded_witness :
    suspicionPoint (1/2) 1 (1/10) ≤ suspicionPoint (1/2) 2 (1/10) ∧
    ∀ s ∈ calculate_suspicion_score [1/2, 3/4] (some [2, 0]) (some [0, 1]) (1/10),
      0 ≤ s ∧ s ≤ 1 :=
  C5_monotone_and_bounded (1/2) 1 2 (1/10) [1/2, 3/4] [2, 0] [0, 1]
    (by norm_num) (by norm_num)

lemma idxOfW_lt_length {α : Type} [DecidableEq α] {l : List α} {a : α} (h : a ∈ l) :
    idxOfW l a < l.length := by
  induction l with
  | nil => simp at h
  | cons v vs ih =>
    by_cases hv : v = a
    · simp [idxOfW, hv]
    · rcases List.mem_cons.mp h with h₁ | h₂
      · exact absurd h₁.symm hv
      · simpa [idxOfW, hv] using ih h₂

lemma getD_idxOfW {α : Type} [DecidableEq α] {l : List α} {a : α} (h : a ∈ l) (d : α) :
    l.getD (idxOfW l a) d = a := by
  induction l with
  | nil => simp at h
  | cons v vs ih =>
    by_cases hv : v = a
    · simp [idxOfW, hv]
    · rcases List.mem_cons.mp h with h₁ | h₂
      · exact absurd h₁.symm hv
      · simpa [idxOfW, hv] using ih h₂

lemma idxOfW_getD {α : Type} [DecidableEq α] {l : List α} (hl : l.Nodup) :
    ∀ {i : ℕ}, i < l.length → ∀ d, idxOfW l (l.getD i d) = i := by
  induction l with
  | nil => intro i hi; simp at hi
  | cons v vs ih =>
    intro i hi d
    rcases List.nodup_cons.mp hl with ⟨hv, hvs⟩
    cases i with
    | zero => simp [idxOfW]
    | succ n =>
      have hn : n < vs.length := by simpa using hi
      have hmem : vs.getD n d ∈ vs := by
        rw [List.getD_eq_getElem _ _ hn]; exact List.getElem_mem hn
      have hne : ¬ v = vs.getD n d := fun hc => hv (hc ▸ hmem)
      rw [List.getD_cons_succ]
      show (if v = vs.getD n d then 0 else idxOfW vs (vs.getD n d) + 1) = n + 1
      rw [if_neg hne, ih hvs hn d]

/-- C2: the vocabulary is exactly the union of source, destination and labeled
identities; it is sorted; the wallet to index map sends every member below the
node count and round-trips with the index to wallet map in both directions;
and two builds from inputs with equal identity sets produce the same sorted
vocabulary, hence identical index assignments. -/
theorem C2_vocab_bijection (sources dests labelIds s₂ d₂ l₂ : List String)
    (hset : (sources ++ dests ++ labelIds).toFinset = (s₂ ++ d₂ ++ l₂).toFinset) :
    (∀ w, w ∈ buildVocab sources dests labelIds ↔
        (w ∈ sources ∨ w ∈ dests ∨ w ∈ labelIds)) ∧
    List.Sorted (· ≤ ·) (buildVocab sources dests labelIds) ∧
    (∀ w ∈ buildVocab sources dests labelIds,
      wallet_to_idx (buildVocab sources dests labelIds) w
          < (buildVocab sources dests labelIds).length ∧
      idx_to_wallet (buildVocab sources dests labelIds)
          (wallet_to_idx (buildVocab sources dests labelIds) w) = w) ∧
    (∀ i < (buildVocab sources dests labelIds).length,
      wallet_to_idx (buildVocab sources dests labelIds)
          (idx_to_wallet (buildVocab sources dests labelIds) i) = i) ∧
    buildVocab sources dests labelIds = buildVocab s₂ d₂ l₂ := by
  refine ⟨?_, ?_, ?_, ?_, ?_⟩
  · intro w
    simp [buildVocab, Finset.mem_sort, Finset.mem_union, List.mem_toFinset, or_assoc]
  · exact Finset.sort_sorted _ _
  · intro w hw
    exact ⟨idxOfW_lt_length hw, getD_idxOfW hw ""⟩
  · intro i hi
    exact idxOfW_getD (Finset.sort_nodup _ _) hi ""
  · unfold buildVocab
    congr 1
    have h₁ : sources.toFinset ∪ dests.toFinset ∪ labelIds.toFinset
        = (sources ++ dests ++ labelIds).toFinset := by
      simp [List.toFinset_append]
    have h₂ : s₂.toFinset ∪ d₂.toFinset ∪ l₂.toFinset = (s₂ ++ d₂ ++ l₂).toFinset := by
      simp [List.toFinset_append]
    rw [h₁, h₂, hset]

/-- C2 witness at concrete identity lists. -/
theorem C2_vocab_bijection_witness :
    (∀ w, w ∈ buildVocab ["B"] ["A"] ["C"] ↔
        (w ∈ ["B"] ∨ w ∈ ["A"] ∨ w ∈ ["C"])) ∧
    List.Sorted (· ≤ ·) (buildVocab ["B"] ["A"] ["C"]) ∧
    (∀ w ∈ buildVocab ["B"] ["A"] ["C"],
      wallet_to_idx (buildVocab ["B"] ["A"] ["C"]) w
          < (buildVocab ["B"] ["A"] ["C"]).length ∧
      idx_to_wallet (buildVocab ["B"] ["A"] ["C"])
          (wallet_to_idx (buildVocab ["B"] ["A"] ["C"]) w) = w) ∧
    (∀ i < (buildVocab ["B"] ["A"] ["C"]).length,
      wallet_to_idx (buildVocab ["B"] ["A"] ["C"])
          (idx_to_wallet (buildVocab ["B"] ["A"] ["C"]) i) = i) ∧
    buildVocab ["B"] ["A"] ["C"] = buildVocab ["A"] ["C"] ["B"] :=
  C2_vocab_bijection ["B"] ["A"] ["C"] ["A"] ["C"] ["B"] (by decide)

/-- C8: a target identity absent from the vocabulary yields the null result
and no exception, for every graph and every behaviour of the hop helper. -/
theorem C8_absent_wallet_null (khop : ℕ → ℕ → List (ℕ × ℕ) → ℕ → List ℕ × List (ℕ × ℕ))
    (y : List ℤ) (edges : List (ℕ × ℕ)) (vocab : List String) (target : String)
    (h : target ∉ vocab) :
    extract_2hop_subgraph khop y edges vocab target = none := by
  simp [extract_2hop_subgraph, h]

/-- C8 witness at a concrete absent identity. -/
theorem C8_absent_wallet_null_witness :
    extract_2hop_subgraph (fun _ _ _ _ => ([], [])) [] [] ["W1"] "W2" = none :=
  C8_absent_wallet_null (fun _ _ _ _ => ([], [])) [] [] ["W1"] "W2" (by decide)

/-- C10: get_embeddings and predict_proba leave the module with the training
flag cleared regardless of the mode they started from, and a forward pass in
that mode applies no dropout mask and uses the inference behaviour of both
batch normalization layers. -/
theorem C10_eval_mode_side_effect {α : Type} (m : SmurfingHunter α) (x : α) :
    (get_embeddings m x).2.training = false ∧
    (predict_proba m x).2.training = false ∧
    forward (modelEval m) x
      = m.classifier (m.relu (m.bn2_eval (m.conv2 (m.relu (m.bn1_eval (m.conv1 x)))))) ∧
    (predict_proba m x).1
      = m.softmaxF (m.classifier (m.relu (m.bn2_eval
          (m.conv2 (m.relu (m.bn1_eval (m.conv1 x))))))) := by
  refine ⟨rfl, rfl, ?_, ?_⟩ <;>
    simp [forward, predict_proba, modelEval, dropoutF, bnApply]

lemma trainLoopAux_append (aucFn : List ℕ → List ℚ → Option ℚ) (l₁ l₂ : List Ep) :
    ∀ (k : ℕ) (st : TrainState),
      trainLoopAux aucFn k st (l₁ ++ l₂)
        = trainLoopAux aucFn (k + l₁.length) (trainLoopAux aucFn k st l₁) l₂ := by
  induction l₁ with
  | nil => intro k st; simp [trainLoopAux]
  | cons e rest ih =>
    intro k st
    rw [List.cons_append]
    simp only [trainLoopAux]
    rw [ih (k + 1)]
    have hlen : k + 1 + rest.length = k + (rest.length + 1) := by omega
    simp only [List.length_cons, hlen]

lemma trainLoopAux_best_nonneg (aucFn : List ℕ → List ℚ → Option ℚ) (l : List Ep) :
    ∀ (k : ℕ) (st : TrainState), 0 ≤ st.best → 0 ≤ (trainLoopAux aucFn k st l).best := by
  induction l with
  | nil => intro k st h; simpa [trainLoopAux] using h
  | cons e rest ih =>
    intro k st h
    simp only [trainLoopAux]
    apply ih
    by_cases hb : st.best < (evaluate aucFn e).2
    · rw [if_pos hb]; exact le_of_lt (lt_of_le_of_lt h hb)
    · rw [if_neg hb]; exact h

lemma mem_saved_trainLoopAux (aucFn : List ℕ → List ℚ → Option ℚ) (l : List Ep) :
    ∀ (k : ℕ) (st : TrainState) (j : ℕ), j ∈ (trainLoopAux aucFn k st l).saved →
      j ∈ st.saved ∨ (k ≤ j ∧ j < k + l.length) := by
  induction l with
  | nil => intro k st j h; exact Or.inl (by simpa [trainLoopAux] using h)
  | cons e rest ih =>
    intro k st j h
    simp only [trainLoopAux] at h
    rcases ih _ _ _ h with hmem | ⟨h₁, h₂⟩
    · by_cases hb : st.best < (evaluate aucFn e).2
      · rw [if_pos hb] at hmem
        have hmem₂ : j ∈ st.saved ++ [k] := hmem
        rcases List.mem_append.mp hmem₂ with hmem₃ | hmem₃
        · exact Or.inl hmem₃
        · have hjk : j = k := by simpa using hmem₃
          subst hjk
          exact Or.inr ⟨le_refl _, by simp only [List.length_cons]; omega⟩
      · rw [if_neg hb] at hmem
        exact Or.inl hmem
    · exact Or.inr ⟨by omega, by simp only [List.length_cons]; omega⟩

/-- C3: when the AUC computation fails at an epoch, evaluate reports AUC 0 for
it, that epoch never enters the saved-checkpoint list (the best AUC starts at
0 and never becomes negative, so 0 cannot strictly exceed it), and the loop
proceeds to the following epochs with its state unchanged by the failing one. -/
theorem C3_failed_auc_no_save (aucFn : List ℕ → List ℚ → Option ℚ)
    (pre post : List Ep) (e : Ep)
    (hfail : aucFn e.yTrue e.probs = none) :
    (evaluate aucFn e).2 = 0 ∧
    (pre.length + 1) ∉ (trainLoop aucFn (pre ++ e :: post)).saved ∧
    trainLoopAux aucFn (pre.length + 1) (trainLoopAux aucFn 1 ⟨0, []⟩ pre) (e :: post)
      = trainLoopAux aucFn (pre.length + 2) (trainLoopAux aucFn 1 ⟨0, []⟩ pre) post := by
  have hzero : (evaluate aucFn e).2 = 0 := by simp [evaluate, hfail]
  set stPre := trainLoopAux aucFn 1 ⟨0, []⟩ pre with hstPre
  have hnn : 0 ≤ stPre.best :=
    trainLoopAux_best_nonneg aucFn pre 1 ⟨0, []⟩ (le_refl 0)
  have hstep : trainLoopAux aucFn (pre.length + 1) stPre (e :: post)
      = trainLoopAux aucFn (pre.length + 2) stPre post := by
    simp only [trainLoopAux, hzero]
    rw [if_neg (not_lt.mpr hnn)]
  refine ⟨hzero, ?_, hstep⟩
  intro hmem
  unfold trainLoop at hmem
  rw [trainLoopAux_append aucFn pre (e :: post) 1 ⟨0, []⟩] at hmem
  have h1len : 1 + pre.length = pre.length + 1 := by omega
  rw [h1len, ← hstPre, hstep] at hmem
  rcases mem_saved_trainLoopAux aucFn post _ _ _ hmem with hin | ⟨h₁, _⟩
  · rcases mem_saved_trainLoopAux aucFn pre _ _ _ hin with hin₂ | ⟨_, h₂⟩
    · simp at hin₂
    · omega
  · omega

/-- C3 witness at a concrete failing epoch. -/
theorem C3_failed_auc_no_save_witness :
    (evaluate (fun _ _ => none) ⟨[1], [1], [1/2]⟩).2 = 0 ∧
    (([] : List Ep).length + 1)
        ∉ (trainLoop (fun _ _ => none) ([] ++ ⟨[1], [1], [1/2]⟩ :: [])).saved ∧
    trainLoopAux (fun _ _ => none) (([] : List Ep).length + 1)
        (trainLoopAux (fun _ _ => none) 1 ⟨0, []⟩ []) (⟨[1], [1], [1/2]⟩ :: [])
      = trainLoopAux (fun _ _ => none) (([] : List Ep).length + 2)
        (trainLoopAux (fun _ _ => none) 1 ⟨0, []⟩ []) [] :=
  C3_failed_auc_no_save (fun _ _ => none) [] [] ⟨[1], [1], [1/2]⟩ rfl

lemma getD_map_range (f : ℕ → ℚ) (n i : ℕ) (hi : i < n) :
    ((List.range n).map f).getD i 0 = f i := by
  have h₁ : i < ((List.range n).map f).length := by simpa using hi
  rw [List.getD_eq_getElem _ _ h₁, List.getElem_map, List.getElem_range]

/-- C9: a wallet that is the source of no transaction keeps the zero
initialization in all four temporal and amount feature components, while its
in-degree entry still equals the number of transactions that point at it. -/
theorem C9_zero_outgoing_features (sqrtA : ℚ → ℚ) (txs : List Tx)
    (vocab : List String) (w : String) (i : ℕ)
    (hnodup : vocab.Nodup) (hi : i < vocab.length) (hw : vocab.getD i "" = w)
    (hout : ∀ t ∈ txs, t.src ≠ w)
    (hdst : ∀ t ∈ txs, t.dst ∈ vocab) :
    (calculate_time_delta_features sqrtA txs vocab).1.getD i 0 = 0 ∧
    (calculate_time_delta_features sqrtA txs vocab).2.getD i 0 = 0 ∧
    (calculate_amount_features sqrtA txs vocab).1.getD i 0 = 0 ∧
    (calculate_amount_features sqrtA txs vocab).2.getD i 0 = 0 ∧
    (calculate_degree_features (edgesOf txs vocab) vocab.length).1.getD i 0
      = ((txs.filter (fun t => decide (t.dst = w))).length : ℚ) := by
  have hempty : txsFrom txs w = [] :=
    List.filter_eq_nil_iff.mpr (fun t ht => by simp [hout t ht])
  refine ⟨?_, ?_, ?_, ?_, ?_⟩
  · rw [show (calculate_time_delta_features sqrtA txs vocab).1
        = (List.range vocab.length).map (fun j => timeDeltaMeanAt txs (vocab.getD j ""))
        from rfl]
    rw [getD_map_range _ _ _ hi, hw]
    simp [timeDeltaMeanAt, deltasOf, hempty, sortQ, diffsQ]
  · rw [show (calculate_time_delta_features sqrtA txs vocab).2
        = (List.range vocab.length).map (fun j => timeDeltaStdAt sqrtA txs (vocab.getD j ""))
        from rfl]
    rw [getD_map_range _ _ _ hi, hw]
    simp [timeDeltaStdAt, deltasOf, hempty, sortQ, diffsQ]
  · rw [show (calculate_amount_features sqrtA txs vocab).1
        = (List.range vocab.length).map (fun j => amountMeanAt txs (vocab.getD j ""))
        from rfl]
    rw [getD_map_range _ _ _ hi, hw]
    simp [amountMeanAt, hempty]
  · rw [show (calculate_amount_features sqrtA txs vocab).2
        = (List.range vocab.length).map (fun j => amountStdAt sqrtA txs (vocab.getD j ""))
        from rfl]
    rw [getD_map_range _ _ _ hi, hw]
    simp [amountStdAt, hempty]
  · rw [show (calculate_degree_features (edgesOf txs vocab) vocab.length).1
        = (List.range vocab.length).map
            (fun j => (((edgesOf txs vocab).filter (fun e => decide (e.2 = j))).length : ℚ))
        from rfl]
    rw [getD_map_range _ _ _ hi]
    unfold edgesOf
    rw [List.filter_map]
    rw [List.length_map]
    have hcong : txs.filter
          ((fun e : ℕ × ℕ => decide (e.2 = i))
            ∘ (fun t => (wallet_to_idx vocab t.src, wallet_to_idx vocab t.dst)))
        = txs.filter (fun t => decide (t.dst = w)) := by
      apply List.filter_congr
      intro t ht
      simp only [Function.comp]
      congr 1
      apply propext
      constructor
      · intro hidx
        have := getD_idxOfW (hdst t ht) ""
        rw [show wallet_to_idx vocab t.dst = idxOfW vocab t.dst from rfl] at hidx
        rw [← this, hidx, hw]
      · intro hdw
        rw [show wallet_to_idx vocab t.dst = idxOfW vocab t.dst from rfl, hdw, ← hw]
        exact idxOfW_getD hnodup hi ""
    rw [hcong]

/-- C9 witness: one transaction from A to B; wallet B has no outgoing
transactions, zero temporal and amount features, and in-degree one. -/
theorem C9_zero_outgoing_features_witness :
    (calculate_time_delta_features id [⟨"A", "B", 100, 0⟩] ["A", "B"]).1.getD 1 0 = 0 ∧
    (calculate_time_delta_features id [⟨"A", "B", 100, 0⟩] ["A", "B"]).2.getD 1 0 = 0 ∧
    (calculate_amount_features id [⟨"A", "B", 100, 0⟩] ["A", "B"]).1.getD 1 0 = 0 ∧
    (calculate_amount_features id [⟨"A", "B", 100, 0⟩] ["A", "B"]).2.getD 1 0 = 0 ∧
    (calculate_degree_features (edgesOf [⟨"A", "B", 100, 0⟩] ["A", "B"]) 2).1.getD 1 0
      = ((([⟨"A", "B", 100, 0⟩] : List Tx).filter
            (fun t => decide (t.dst = "B"))).length : ℚ) := by
  have h := C9_zero_outgoing_features id [⟨"A", "B", 100, 0⟩] ["A", "B"] "B" 1
    (by decide) (by decide) (by decide)
    (by intro t ht; simp at ht; subst ht; decide)
    (by intro t ht; simp at ht; subst ht; decide)
  simpa using h

lemma length_setTrues (idxs : List ℕ) : ∀ (m : List Bool),
    (setTrues m idxs).length = m.length := by
  induction idxs with
  | nil => intro m; rfl
  | cons j rest ih =>
    intro m
    show (setTrues (m.set j true) rest).length = m.length
    rw [ih, List.length_set]

lemma getD_setTrues (idxs : List ℕ) : ∀ (m : List Bool) (i : ℕ), i < m.length →
    (setTrues m idxs).getD i false = (m.getD i false || decide (i ∈ idxs)) := by
  induction idxs with
  | nil => intro m i hi; simp [setTrues]
  | cons j rest ih =>
    intro m i hi
    show (setTrues (m.set j true) rest).getD i false = _
    rw [ih (m.set j true) i (by rw [List.length_set]; exact hi)]
    by_cases hji : j = i
    · subst hji
      have h₁ : (m.set j true).getD j false = true := by
        rw [List.getD_eq_getElem _ _ (by rw [List.length_set]; exact hi)]
        simp [List.getElem_set]
      rw [h₁]
      simp
    · have h₁ : (m.set j true).getD i false = m.getD i false := by
        rw [List.getD_eq_getElem _ _ (by rw [List.length_set]; exact hi),
          List.getD_eq_getElem _ _ hi]
        simp [List.getElem_set, hji]
      have h₃ : (i ∈ j :: rest) ↔ (i ∈ rest) := by
        constructor
        · intro h
          rcases List.mem_cons.mp h with h | h
          · exact absurd h.symm hji
          · exact h
        · exact List.mem_cons_of_mem j
      rw [h₁, decide_eq_decide.mpr h₃]

lemma mem_classIndices {β : Type} [DecidableEq β] [Inhabited β] (y : List β)
    (c : β) (i : ℕ) :
    i ∈ classIndices y c ↔ (i < y.length ∧ y.getD i default = c) := by
  simp [classIndices, List.mem_filter, List.mem_range]

lemma nodup_classIndices {β : Type} [DecidableEq β] [Inhabited β] (y : List β)
    (c : β) : (classIndices y c).Nodup :=
  List.Nodup.filter _ (List.nodup_range _)

lemma map_getD_range (l : List ℕ) :
    (List.range l.length).map (fun j => l.getD j 0) = l := by
  apply List.ext_getElem
  · simp
  · intro n h₁ h₂
    rw [List.getElem_map, List.getElem_range, List.getD_eq_getElem _ _ h₂]

lemma reindex_perm {l p : List ℕ} (hp : p.Perm (List.range l.length)) :
    (reindex l p).Perm l := by
  have h₁ : (reindex l p).Perm ((List.range l.length).map (fun j => l.getD j 0)) :=
    List.Perm.map _ hp
  rw [map_getD_range] at h₁
  exact h₁

lemma cutQ_le_of_le_one {r : ℚ} (h₁ : r ≤ 1) (n : ℕ) : cutQ r n ≤ n := by
  unfold cutQ
  have h₂ : (n : ℚ) * r ≤ (n : ℚ) := mul_le_of_le_one_right (by positivity) h₁
  have h₃ : ⌊(n : ℚ) * r⌋ ≤ ⌊(n : ℚ)⌋ := Int.floor_le_floor h₂
  rw [Int.floor_natCast] at h₃
  calc (⌊(n : ℚ) * r⌋).toNat ≤ ((n : ℤ)).toNat := Int.toNat_le_toNat h₃
  _ = n := Int.toNat_natCast n

lemma chunksFrom_append {β : Type} (sel : ℕ → β → List ℕ) (l₁ l₂ : List β) :
    ∀ k, chunksFrom sel k (l₁ ++ l₂)
      = chunksFrom sel k l₁ ++ chunksFrom sel (k + l₁.length) l₂ := by
  induction l₁ with
  | nil => intro k; simp [chunksFrom]
  | cons c cs ih =>
    intro k
    rw [List.cons_append]
    show sel k c ++ chunksFrom sel (k + 1) (cs ++ l₂)
      = (sel k c ++ chunksFrom sel (k + 1) cs) ++ chunksFrom sel (k + (c :: cs).length) l₂
    rw [ih (k + 1), List.append_assoc]
    have hk : k + 1 + cs.length = k + (c :: cs).length := by
      simp [List.length_cons]; omega
    rw [hk]

lemma not_mem_chunksFrom {β : Type} [DecidableEq β] [Inhabited β]
    {y : List β} {sel : ℕ → β → List ℕ}
    (hsub : ∀ k c x, x ∈ sel k c → x ∈ classIndices y c)
    {i : ℕ} (cs : List β) (hc : ∀ c ∈ cs, y.getD i default ≠ c) :
    ∀ k, i ∉ chunksFrom sel k cs := by
  induction cs with
  | nil => intro k h; simp [chunksFrom] at h
  | cons c cs ih =>
    intro k h
    rcases List.mem_append.mp h with h₁ | h₂
    · have := (mem_classIndices y c i).mp (hsub k c i h₁)
      exact hc c (List.mem_cons_self c cs) this.2
    · exact ih (fun c hcm => hc c (List.mem_cons_of_mem _ hcm)) (k + 1) h₂

lemma mem_chunksFrom_iff_sel {β : Type} [DecidableEq β] [Inhabited β]
    {y : List β} {sel : ℕ → β → List ℕ}
    (hsub : ∀ k c x, x ∈ sel k c → x ∈ classIndices y c)
    (as bs : List β) (c₀ : β) (hnd : (as ++ c₀ :: bs).Nodup)
    {i : ℕ} (hgetD : y.getD i default = c₀) :
    (i ∈ chunksFrom sel 0 (as ++ c₀ :: bs)) ↔ i ∈ sel as.length c₀ := by
  rw [chunksFrom_append]
  have hnds := List.nodup_append.mp hnd
  have hc₀as : c₀ ∉ as := fun h => (hnds.2.2 h) (List.mem_cons_self _ _)
  have hc₀bs : c₀ ∉ bs := by
    have := List.nodup_cons.mp hnds.2.1
    exact this.1
  constructor
  · intro h
    rcases List.mem_append.mp h with h₁ | h₂
    · exact absurd h₁ (not_mem_chunksFrom hsub as
        (fun c hcm hEq => hc₀as ((hgetD.symm.trans hEq) ▸ hcm)) 0)
    · show i ∈ sel as.length c₀
      rcases List.mem_append.mp h₂ with h₃ | h₄
      · simpa using h₃
      · exact absurd h₄ (not_mem_chunksFrom hsub bs
          (fun c hcm hEq => hc₀bs ((hgetD.symm.trans hEq) ▸ hcm)) _)
  · intro h
    apply List.mem_append.mpr
    right
    show i ∈ sel (0 + as.length) c₀ ++ chunksFrom sel (0 + as.length + 1) bs
    apply List.mem_append.mpr
    left
    simpa using h

lemma decide_mem_append {i : ℕ} {a b : List ℕ} :
    decide (i ∈ a ++ b) = (decide (i ∈ a) || decide (i ∈ b)) := by
  by_cases h₁ : i ∈ a
  · simp [h₁, List.mem_append]
  · by_cases h₂ : i ∈ b <;> simp [h₁, h₂, List.mem_append]

lemma getD_replicate_false (n i : ℕ) :
    (List.replicate n false).getD i false = false := by
  by_cases h : i < n
  · rw [List.getD_eq_getElem _ _ (by simpa using h)]
    exact List.getElem_replicate _ _
  · exact List.getD_eq_default _ _ (by simpa using not_lt.mp h)

lemma stratStep_eq {β : Type} [DecidableEq β] [Inhabited β] (rand : ℕ → ℕ → List ℕ)
    (y : List β) (tf vf : ℚ) (M : Masks) (k : ℕ) (c : β) :
    stratStep rand y tf vf (M, k) c
      = (⟨setTrues M.train (trainSel rand y tf k c),
          setTrues M.val (valSel rand y tf vf k c),
          setTrues M.test (testSel rand y tf vf k c)⟩, k + 1) := rfl

lemma strat_foldl_spec {β : Type} [DecidableEq β] [Inhabited β]
    (rand : ℕ → ℕ → List ℕ) (y : List β) (tf vf : ℚ) :
    ∀ (cs : List β) (k : ℕ) (M : Masks),
      M.train.length = y.length → M.val.length = y.length → M.test.length = y.length →
      ((cs.foldl (stratStep rand y tf vf) (M, k)).1.train.length = y.length ∧
       (cs.foldl (stratStep rand y tf vf) (M, k)).1.val.length = y.length ∧
       (cs.foldl (stratStep rand y tf vf) (M, k)).1.test.length = y.length) ∧
      ∀ i, i < y.length →
        ((cs.foldl (stratStep rand y tf vf) (M, k)).1.train.getD i false
            = (M.train.getD i false
                || decide (i ∈ chunksFrom (trainSel rand y tf) k cs)) ∧
         (cs.foldl (stratStep rand y tf vf) (M, k)).1.val.getD i false
            = (M.val.getD i false
                || decide (i ∈ chunksFrom (valSel rand y tf vf) k cs)) ∧
         (cs.foldl (stratStep rand y tf vf) (M, k)).1.test.getD i false
            = (M.test.getD i false
                || decide (i ∈ chunksFrom (testSel rand y tf vf) k cs))) := by
  intro cs
  induction cs with
  | nil =>
    intro k M hT hV hW
    refine ⟨⟨hT, hV, hW⟩, ?_⟩
    intro i hi
    simp [chunksFrom]
  | cons c cs ih =>
    intro k M hT hV hW
    rw [List.foldl_cons, stratStep_eq]
    have hT₂ : (setTrues M.train (trainSel rand y tf k c)).length = y.length := by
      rw [length_setTrues]; exact hT
    have hV₂ : (setTrues M.val (valSel rand y tf vf k c)).length = y.length := by
      rw [length_setTrues]; exact hV
    have hW₂ : (setTrues M.test (testSel rand y tf vf k c)).length = y.length := by
      rw [length_setTrues]; exact hW
    obtain ⟨hlen, hchar⟩ := ih (k + 1)
      ⟨setTrues M.train (trainSel rand y tf k c),
       setTrues M.val (valSel rand y tf vf k c),
       setTrues M.test (testSel rand y tf vf k c)⟩ hT₂ hV₂ hW₂
    refine ⟨hlen, ?_⟩
    intro i hi
    obtain ⟨hc₁, hc₂, hc₃⟩ := hchar i hi
    refine ⟨?_, ?_, ?_⟩
    · rw [hc₁]
      change ((setTrues M.train (trainSel rand y tf k c)).getD i false
          || decide (i ∈ chunksFrom (trainSel rand y tf) (k + 1) cs))
        = (M.train.getD i false || decide (i ∈ chunksFrom (trainSel rand y tf) k (c :: cs)))
      rw [getD_setTrues _ _ _ (by rw [hT]; exact hi),
        show chunksFrom (trainSel rand y tf) k (c :: cs)
          = trainSel rand y tf k c ++ chunksFrom (trainSel rand y tf) (k + 1) cs from rfl,
        decide_mem_append, Bool.or_assoc]
    · rw [hc₂]
      change ((setTrues M.val (valSel rand y tf vf k c)).getD i false
          || decide (i ∈ chunksFrom (valSel rand y tf vf) (k + 1) cs))
        = (M.val.getD i false || decide (i ∈ chunksFrom (valSel rand y tf vf) k (c :: cs)))
      rw [getD_setTrues _ _ _ (by rw [hV]; exact hi),
        show chunksFrom (valSel rand y tf vf) k (c :: cs)
          = valSel rand y tf vf k c ++ chunksFrom (valSel rand y tf vf) (k + 1) cs from rfl,
        decide_mem_append, Bool.or_assoc]
    · rw [hc₃]
      change ((setTrues M.test (testSel rand y tf vf k c)).getD i false
          || decide (i ∈ chunksFrom (testSel rand y tf vf) (k + 1) cs))
        = (M.test.getD i false || decide (i ∈ chunksFrom (testSel rand y tf vf) k (c :: cs)))
      rw [getD_setTrues _ _ _ (by rw [hW]; exact hi),
        show chunksFrom (testSel rand y tf vf) k (c :: cs)
          = testSel rand y tf vf k c ++ chunksFrom (testSel rand y tf vf) (k + 1) cs from rfl,
        decide_mem_append, Bool.or_assoc]

lemma length_filter_mem : ∀ (l t : List ℕ), l.Nodup → t.Nodup → (∀ x ∈ t, x ∈ l) →
    (l.filter (fun x => decide (x ∈ t))).length = t.length := by
  intro l
  induction l with
  | nil =>
    intro t _ _ hsub
    have ht : t = [] := List.eq_nil_iff_forall_not_mem.mpr
      (fun a ha => by simpa using hsub a ha)
    simp [ht]
  | cons v l ih =>
    intro t hnd hndt hsub
    rcases List.nodup_cons.mp hnd with ⟨hvl, hl⟩
    by_cases hv : v ∈ t
    · rw [List.filter_cons_of_pos (by simpa using hv)]
      have hcong : l.filter (fun x => decide (x ∈ t))
          = l.filter (fun x => decide (x ∈ t.erase v)) := by
        apply List.filter_congr
        intro x hx
        have hxv : x ≠ v := fun hEq => hvl (hEq ▸ hx)
        simp [List.mem_erase_of_ne hxv]
      have hsub₂ : ∀ x ∈ t.erase v, x ∈ l := by
        intro x hx
        obtain ⟨hxv, hxt⟩ := hndt.mem_erase_iff.mp hx
        rcases List.mem_cons.mp (hsub x hxt) with h | h
        · exact absurd h hxv
        · exact h
      rw [List.length_cons, hcong, ih (t.erase v) hl (hndt.erase v) hsub₂,
        List.length_erase_of_mem hv]
      have hpos : 0 < t.length := List.length_pos_of_mem hv
      omega
    · rw [List.filter_cons_of_neg (by simpa using hv)]
      apply ih t hl hndt
      intro x hx
      rcases List.mem_cons.mp (hsub x hx) with h | h
      · exact absurd (h ▸ hx) hv
      · exact h

/-- C1: under the default proportions 0.6 and 0.2, and for every behaviour of
the generator that returns permutations, the three masks have the length of
the label tensor, every node index is marked in exactly one of them, and
within each label class the train mask receives exactly the rounded-down 0.6
share of the class size. -/
theorem C1_stratified_masks_partition {β : Type} [DecidableEq β] [LinearOrder β]
    [Inhabited β] (rand : ℕ → ℕ → List ℕ) (y : List β)
    (hrand : ∀ k n, (rand k n).Perm (List.range n)) :
    ((create_stratified_masks rand y (3/5) (1/5)).train.length = y.length ∧
     (create_stratified_masks rand y (3/5) (1/5)).val.length = y.length ∧
     (create_stratified_masks rand y (3/5) (1/5)).test.length = y.length) ∧
    (∀ i, i < y.length →
      ((create_stratified_masks rand y (3/5) (1/5)).train.getD i false).toNat
        + ((create_stratified_masks rand y (3/5) (1/5)).val.getD i false).toNat
        + ((create_stratified_masks rand y (3/5) (1/5)).test.getD i false).toNat = 1) ∧
    (∀ c ∈ uniqueSorted y,
      ((classIndices y c).filter
          (fun i => (create_stratified_masks rand y (3/5) (1/5)).train.getD i false)).length
        = (⌊((classIndices y c).length : ℚ) * (3/5)⌋).toNat) := by
  have hrepl : (List.replicate y.length false).length = y.length :=
    List.length_replicate _ _
  obtain ⟨⟨hLT, hLV, hLW⟩, hchar⟩ := strat_foldl_spec rand y (3/5) (1/5)
    (uniqueSorted y) 0
    ⟨List.replicate y.length false, List.replicate y.length false,
      List.replicate y.length false⟩ hrepl hrepl hrepl
  have hF : create_stratified_masks rand y (3/5) (1/5)
      = ((uniqueSorted y).foldl (stratStep rand y (3/5) (1/5))
          (⟨List.replicate y.length false, List.replicate y.length false,
            List.replicate y.length false⟩, 0)).1 := rfl
  rw [← hF] at hLT hLV hLW
  have hshper : ∀ (k : ℕ) (c : β),
      (reindex (classIndices y c) (rand k (classIndices y c).length)).Perm
        (classIndices y c) :=
    fun k c => reindex_perm (hrand k _)
  have hshnd : ∀ (k : ℕ) (c : β),
      (reindex (classIndices y c) (rand k (classIndices y c).length)).Nodup :=
    fun k c => ((hshper k c).nodup_iff).mpr (nodup_classIndices y c)
  have hsubT : ∀ (k : ℕ) (c : β) (x : ℕ),
      x ∈ trainSel rand y (3/5) k c → x ∈ classIndices y c := by
    intro k c x hx
    exact (hshper k c).mem_iff.mp (List.take_subset _ _ hx)
  have hsubV : ∀ (k : ℕ) (c : β) (x : ℕ),
      x ∈ valSel rand y (3/5) (1/5) k c → x ∈ classIndices y c := by
    intro k c x hx
    exact (hshper k c).mem_iff.mp
      (List.drop_subset _ _ (List.take_subset _ _ hx))
  have hsubW : ∀ (k : ℕ) (c : β) (x : ℕ),
      x ∈ testSel rand y (3/5) (1/5) k c → x ∈ classIndices y c := by
    intro k c x hx
    exact (hshper k c).mem_iff.mp (List.drop_subset _ _ hx)
  have hpart : ∀ (k : ℕ) (c : β),
      trainSel rand y (3/5) k c
        ++ (valSel rand y (3/5) (1/5) k c ++ testSel rand y (3/5) (1/5) k c)
      = reindex (classIndices y c) (rand k (classIndices y c).length) := by
    intro k c
    unfold trainSel valSel testSel
    have hdd : ((reindex (classIndices y c) (rand k (classIndices y c).length)).drop
          (cutQ (3/5) (classIndices y c).length)).drop
            (cutQ (1/5) (classIndices y c).length)
        = (reindex (classIndices y c) (rand k (classIndices y c).length)).drop
            (cutQ (3/5) (classIndices y c).length
              + cutQ (1/5) (classIndices y c).length) := by
      rw [List.drop_drop]
    rw [← hdd, List.take_append_drop, List.take_append_drop]
  have hndU : (uniqueSorted y).Nodup := Finset.sort_nodup _ _
  have classFacts : ∀ c ∈ uniqueSorted y, ∃ K : ℕ,
      ∀ i, i < y.length → y.getD i default = c →
        ((create_stratified_masks rand y (3/5) (1/5)).train.getD i false
            = decide (i ∈ trainSel rand y (3/5) K c) ∧
         (create_stratified_masks rand y (3/5) (1/5)).val.getD i false
            = decide (i ∈ valSel rand y (3/5) (1/5) K c) ∧
         (create_stratified_masks rand y (3/5) (1/5)).test.getD i false
            = decide (i ∈ testSel rand y (3/5) (1/5) K c)) := by
    intro c hcmem
    obtain ⟨as, bs, hdecomp⟩ := List.append_of_mem hcmem
    have hnd : (as ++ c :: bs).Nodup := hdecomp ▸ hndU
    refine ⟨as.length, ?_⟩
    intro i hi hgetD
    obtain ⟨h₁, h₂, h₃⟩ := hchar i hi
    rw [← hF] at h₁ h₂ h₃
    simp only [getD_replicate_false, Bool.false_or] at h₁ h₂ h₃
    rw [hdecomp] at h₁ h₂ h₃
    rw [decide_eq_decide.mpr (mem_chunksFrom_iff_sel hsubT as bs c hnd hgetD)] at h₁
    rw [decide_eq_decide.mpr (mem_chunksFrom_iff_sel hsubV as bs c hnd hgetD)] at h₂
    rw [decide_eq_decide.mpr (mem_chunksFrom_iff_sel hsubW as bs c hnd hgetD)] at h₃
    exact ⟨h₁, h₂, h₃⟩
  refine ⟨⟨hLT, hLV, hLW⟩, ?_, ?_⟩
  · intro i hi
    have hc₀y : y.getD i default ∈ y := by
      rw [List.getD_eq_getElem _ _ hi]; exact List.getElem_mem hi
    have hc₀mem : y.getD i default ∈ uniqueSorted y := by
      simpa [uniqueSorted, Finset.mem_sort, List.mem_toFinset] using hc₀y
    obtain ⟨K, hKchar⟩ := classFacts (y.getD i default) hc₀mem
    obtain ⟨hTc, hVc, hWc⟩ := hKchar i hi rfl
    have hP := hpart K (y.getD i default)
    have hiC : i ∈ classIndices y (y.getD i default) :=
      (mem_classIndices y _ i).mpr ⟨hi, rfl⟩
    have hish : i ∈ reindex (classIndices y (y.getD i default))
        (rand K (classIndices y (y.getD i default)).length) :=
      (hshper K _).mem_iff.mpr hiC
    have hnd := hshnd K (y.getD i default)
    rw [← hP] at hish hnd
    rcases List.nodup_append.mp hnd with ⟨hndT, hndVW, hdisjT⟩
    rcases List.nodup_append.mp hndVW with ⟨hndV, hndW, hdisjV⟩
    rw [hTc, hVc, hWc]
    rcases List.mem_append.mp hish with hT | hVW
    · have hnV : i ∉ valSel rand y (3/5) (1/5) K (y.getD i default) :=
        fun h => hdisjT hT (List.mem_append.mpr (Or.inl h))
      have hnW : i ∉ testSel rand y (3/5) (1/5) K (y.getD i default) :=
        fun h => hdisjT hT (List.mem_append.mpr (Or.inr h))
      rw [decide_eq_true hT, decide_eq_false hnV, decide_eq_false hnW]
      rfl
    · rcases List.mem_append.mp hVW with hV | hW
      · have hnT : i ∉ trainSel rand y (3/5) K (y.getD i default) :=
          fun h => hdisjT h hVW
        have hnW : i ∉ testSel rand y (3/5) (1/5) K (y.getD i default) :=
          fun h => hdisjV hV h
        rw [decide_eq_false hnT, decide_eq_true hV, decide_eq_false hnW]
        rfl
      · have hnT : i ∉ trainSel rand y (3/5) K (y.getD i default) :=
          fun h => hdisjT h hVW
        have hnV : i ∉ valSel rand y (3/5) (1/5) K (y.getD i default) :=
          fun h => hdisjV h hW
        rw [decide_eq_false hnT, decide_eq_false hnV, decide_eq_true hW]
        rfl
  · intro c hcmem
    obtain ⟨K, hKchar⟩ := classFacts c hcmem
    have hcong : (classIndices y c).filter
          (fun i => (create_stratified_masks rand y (3/5) (1/5)).train.getD i false)
        = (classIndices y c).filter
          (fun i => decide (i ∈ trainSel rand y (3/5) K c)) := by
      apply List.filter_congr
      intro x hx
      obtain ⟨hx₁, hx₂⟩ := (mem_classIndices y c x).mp hx
      exact (hKchar x hx₁ hx₂).1
    have hndT : (trainSel rand y (3/5) K c).Nodup :=
      (List.take_sublist _ _).nodup (hshnd K c)
    rw [hcong, length_filter_mem _ _ (nodup_classIndices y c) hndT
      (fun x hx => hsubT K c x hx)]
    unfold trainSel
    rw [List.length_take, (hshper K c).length_eq]
    exact min_eq_left (cutQ_le_of_le_one (by norm_num) _)

/-- C1 witness at a concrete label tensor and the identity generator. -/
theorem C1_stratified_masks_partition_witness :
    (((create_stratified_masks (fun _ n => List.range n) [0, 1, 0, 1, 1] (3/5) (1/5)).train.length
        = ([0, 1, 0, 1, 1] : List ℕ).length ∧
      (create_stratified_masks (fun _ n => List.range n) [0, 1, 0, 1, 1] (3/5) (1/5)).val.length
        = ([0, 1, 0, 1, 1] : List ℕ).length ∧
      (create_stratified_masks (fun _ n => List.range n) [0, 1, 0, 1, 1] (3/5) (1/5)).test.length
        = ([0, 1, 0, 1, 1] : List ℕ).length) ∧
     (∀ i, i < ([0, 1, 0, 1, 1] : List ℕ).length →
       ((create_stratified_masks (fun _ n => List.range n) [0, 1, 0, 1, 1] (3/5) (1/5)).train.getD i false).toNat
         + ((create_stratified_masks (fun _ n => List.range n) [0, 1, 0, 1, 1] (3/5) (1/5)).val.getD i false).toNat
         + ((create_stratified_masks (fun _ n => List.range n) [0, 1, 0, 1, 1] (3/5) (1/5)).test.getD i false).toNat = 1) ∧
     (∀ c ∈ uniqueSorted ([0, 1, 0, 1, 1] : List ℕ),
       ((classIndices ([0, 1, 0, 1, 1] : List ℕ) c).filter
           (fun i => (create_stratified_masks (fun _ n => List.range n) [0, 1, 0, 1, 1] (3/5) (1/5)).train.getD i false)).length
         = (⌊((classIndices ([0, 1, 0, 1, 1] : List ℕ) c).length : ℚ) * (3/5)⌋).toNat)) :=
  C1_stratified_masks_partition (fun _ n => List.range n) [0, 1, 0, 1, 1]
    (fun _ n => List.Perm.refl _)

/-- C7: the masks are a function of the generator draw (the global torch
seed), the label tensor and the two proportions alone: two invocations that
agree on all four produce identical train, validation and test masks. -/
theorem C7_fixed_seed_reproducible {β : Type} [DecidableEq β] [LinearOrder β]
    [Inhabited β] (rand₁ rand₂ : ℕ → ℕ → List ℕ) (y₁ y₂ : List β)
    (tf₁ tf₂ vf₁ vf₂ : ℚ)
    (hg : rand₁ = rand₂) (hy : y₁ = y₂) (htf : tf₁ = tf₂) (hvf : vf₁ = vf₂) :
    create_stratified_masks rand₁ y₁ tf₁ vf₁
      = create_stratified_masks rand₂ y₂ tf₂ vf₂ := by
  subst hg; subst hy; subst htf; subst hvf; rfl

/-- C7 witness at a concrete seed and label tensor. -/
theorem C7_fixed_seed_reproducible_witness :
    create_stratified_masks (fun _ n => List.range n) ([0, 1, 1] : List ℕ) (3/5) (1/5)
      = create_stratified_masks (fun _ n => List.range n) ([0, 1, 1] : List ℕ) (3/5) (1/5) :=
  C7_fixed_seed_reproducible (fun _ n => List.range n) (fun _ n => List.range n)
    [0, 1, 1] [0, 1, 1] (3/5) (3/5) (1/5) (1/5) rfl rfl rfl rfl

lemma getCol_ok_mem {df : DF} {c : String} {cells : List Cell}
    (h : getCol df c = .ok cells) : c ∈ df.cols := by
  by_cases hc : c ∈ df.cols
  · exact hc
  · simp [getCol, hc] at h

lemma getCol_ok_val {df : DF} {c : String} {cells : List Cell}
    (h : getCol df c = .ok cells) : cells = df.rows.map (fun r => r c) := by
  by_cases hc : c ∈ df.cols
  · unfold getCol at h
    rw [if_pos hc] at h
    injection h with h₂
    exact h₂.symm
  · simp [getCol, hc] at h

lemma optMapAll_some_forall {γ : Type} {f : Cell → Option γ} :
    ∀ {cells : List Cell} {v : List γ}, optMapAll f cells = some v →
      ∀ c ∈ cells, f c ≠ none := by
  intro cells
  induction cells with
  | nil => intro v _ c hc; simp at hc
  | cons a cs ih =>
    intro v h c hc
    unfold optMapAll at h
    cases hfa : f a with
    | none => rw [hfa] at h; simp at h
    | some b =>
      rw [hfa] at h
      cases hcs : optMapAll f cs with
      | none => rw [hcs] at h; simp at h
      | some vs =>
        rcases List.mem_cons.mp hc with rfl | hcm
        · simp [hfa]
        · exact ih hcs c hcm

lemma loadFeatures_ok_implies {sqrtA : ℚ → ℚ} {txdf : DF}
    {sources dests : List String} {edge_index : List (ℕ × ℕ)}
    {vocab : List String} {x : List (List ℚ)}
    (h : loadFeatures sqrtA true txdf sources dests edge_index vocab = .ok x) :
    "Timestamp" ∈ txdf.cols ∧
    (txdf.rows ≠ [] →
      "Amount" ∈ txdf.cols ∧ ∀ r ∈ txdf.rows, cellNum (r "Amount") ≠ none) := by
  unfold loadFeatures at h
  dsimp only at h
  cases hT : getCol txdf "Timestamp" with
  | error e => rw [hT] at h; simp at h
  | ok tsCells =>
  rw [hT] at h
  dsimp only at h
  refine ⟨getCol_ok_mem hT, ?_⟩
  intro hrows
  cases hMap : optMapAll cellTime tsCells with
  | none => rw [hMap] at h; simp at h
  | some tsVals =>
  rw [hMap] at h
  dsimp only at h
  cases hA : loadAmounts txdf with
  | error e => rw [hA] at h; simp at h
  | ok amts =>
  unfold loadAmounts at hA
  cases hR : txdf.rows with
  | nil => exact absurd hR hrows
  | cons r rs =>
  rw [hR] at hA
  dsimp only at hA
  cases hAc : getCol txdf "Amount" with
  | error e => rw [hAc] at hA; simp at hA
  | ok aCells =>
  rw [hAc] at hA
  dsimp only at hA
  cases hMapA : optMapAll cellNum aCells with
  | none => rw [hMapA] at hA; simp at hA
  | some v =>
  refine ⟨getCol_ok_mem hAc, ?_⟩
  intro rr hrr
  have hcellmem : rr "Amount" ∈ aCells := by
    rw [getCol_ok_val hAc, hR]
    exact List.mem_map_of_mem _ hrr
  exact optMapAll_some_forall hMapA _ hcellmem

lemma load_ok_implies (sqrtA : ℚ → ℚ) (rand : ℕ → ℕ → List ℕ)
    (txdf labeldf : DF) (g : GraphData)
    (h : load_transaction_graph sqrtA rand true txdf labeldf = .ok g) :
    "Source_Wallet_ID" ∈ txdf.cols ∧ "Dest_Wallet_ID" ∈ txdf.cols ∧
    "Timestamp" ∈ txdf.cols ∧
    (txdf.rows ≠ [] →
      "Amount" ∈ txdf.cols ∧ ∀ r ∈ txdf.rows, cellNum (r "Amount") ≠ none) := by
  unfold load_transaction_graph at h
  cases hS : getCol txdf "Source_Wallet_ID" with
  | error e => rw [hS] at h; simp at h
  | ok srcCells =>
  rw [hS] at h
  dsimp only at h
  cases hD : getCol txdf "Dest_Wallet_ID" with
  | error e => rw [hD] at h; simp at h
  | ok dstCells =>
  rw [hD] at h
  dsimp only at h
  cases hL : getCol labeldf "Wallet_ID" with
  | error e => rw [hL] at h; simp at h
  | ok lblCells =>
  rw [hL] at h
  dsimp only at h
  cases hY : loadLabels labeldf (lblCells.map cellKey)
      (buildVocab (srcCells.map cellKey) (dstCells.map cellKey)
        (lblCells.map cellKey)) with
  | error e => rw [hY] at h; simp at h
  | ok y =>
  rw [hY] at h
  dsimp only at h
  cases hX : loadFeatures sqrtA true txdf
      (srcCells.map cellKey) (dstCells.map cellKey)
      (edgesIdx (srcCells.map cellKey) (dstCells.map cellKey)
        (buildVocab (srcCells.map cellKey) (dstCells.map cellKey)
          (lblCells.map cellKey)))
      (buildVocab (srcCells.map cellKey) (dstCells.map cellKey)
        (lblCells.map cellKey)) with
  | error e => rw [hX] at h; simp at h
  | ok x =>
  obtain ⟨hTm, hAm⟩ := loadFeatures_ok_implies hX
  exact ⟨getCol_ok_mem hS, getCol_ok_mem hD, hTm, hAm⟩

/-- C6 counterexample: a transactions table that is missing the required
Amount column but has no rows is accepted by the loader and a graph is
produced, because the Amount column is only touched inside the per-group
aggregation loop and an empty table has no groups. -/
theorem C6_counterexample :
    isOkE (load_transaction_graph id (fun _ n => List.range n) true
      txdfCE labeldfCE) = true := by rfl

/-- C6 (amended): graph construction fails with a pandas error, and no graph
is produced, whenever the source, destination or timestamp column is
missing, and whenever the table has at least one row and the amount column
is missing or holds a non-numeric cell; only a missing or malformed amount
column in a rowless table escapes detection. -/
theorem C6_amended_malformed_input (sqrtA : ℚ → ℚ) (rand : ℕ → ℕ → List ℕ)
    (txdf labeldf : DF) :
    (("Source_Wallet_ID" ∉ txdf.cols ∨ "Dest_Wallet_ID" ∉ txdf.cols ∨
        "Timestamp" ∉ txdf.cols) →
      ∃ e, load_transaction_graph sqrtA rand true txdf labeldf = .error e) ∧
    ((txdf.rows ≠ [] ∧
        ("Amount" ∉ txdf.cols ∨ ∃ r ∈ txdf.rows, cellNum (r "Amount") = none)) →
      ∃ e, load_transaction_graph sqrtA rand true txdf labeldf = .error e) := by
  constructor
  · intro hmiss
    cases hload : load_transaction_graph sqrtA rand true txdf labeldf with
    | error e => exact ⟨e, rfl⟩
    | ok g =>
      obtain ⟨h₁, h₂, h₃, _⟩ := load_ok_implies sqrtA rand txdf labeldf g hload
      rcases hmiss with hm | hm | hm
      · exact absurd h₁ hm
      · exact absurd h₂ hm
      · exact absurd h₃ hm
  · intro hbad
    cases hload : load_transaction_graph sqrtA rand true txdf labeldf with
    | error e => exact ⟨e, rfl⟩
    | ok g =>
      obtain ⟨_, _, _, h₄⟩ := load_ok_implies sqrtA rand txdf labeldf g hload
      obtain ⟨hAm, hall⟩ := h₄ hbad.1
      rcases hbad.2 with hm | ⟨r, hr, hnone⟩
      · exact absurd hAm hm
      · exact absurd hnone (hall r hr)

/-- C6 amended witness: a transactions table missing the source column is
rejected. -/
theorem C6_amended_malformed_input_witness :
    ∃ e, load_transaction_graph id (fun _ n => List.range n) true
      ⟨["Dest_Wallet_ID"], []⟩ ⟨[], []⟩ = .error e :=
  (C6_amended_malformed_input id (fun _ n => List.range n)
    ⟨["Dest_Wallet_ID"], []⟩ ⟨[], []⟩).1 (Or.inl (by decide))

end Rapid


